import Mathlib

/-!
Shallow embedding of the Talos hex-decoder core (decoder.py, models.py,
history.py).  Python `str` is modelled as `List Char`, Python `bytes` as
`List Nat` (each element below 256), Python `int` as `Int`.  The regular
expression `HEX_RUN = (?:\b[0-9A-Fa-f]{2}\b(?:\s+|$)){3,}` (MULTILINE) is
modelled by an explicit executable scanner; the character classes are the
ASCII portions of Python's `\w` and `\s` (Python's classes also contain
non-ASCII word and space characters; every concrete input used below is
ASCII, and the positional theorems do not depend on the classes'
extensions).
-/

namespace Talos

/-- ASCII approximation of Python regex class `\s` (space, tab, newline,
carriage return, vertical tab, form feed). -/
def isSpaceC (c : Char) : Bool :=
  c = ' ' || c = '\t' || c = '\n' || c = '\r' || c = '\x0b' || c = '\x0c'

/-- ASCII approximation of Python regex class `\w` (letters, digits,
underscore). -/
def isWordCharC (c : Char) : Bool :=
  ('0' ≤ c && c ≤ '9') || ('A' ≤ c && c ≤ 'Z') || ('a' ≤ c && c ≤ 'z') || c = '_'

/-- The character class `[0-9A-Fa-f]` of the HEX_RUN pattern. -/
def isHexDigitC (c : Char) : Bool :=
  ('0' ≤ c && c ≤ '9') || ('A' ≤ c && c ≤ 'F') || ('a' ≤ c && c ≤ 'f')

/-- Length of the maximal whitespace prefix of a character list (the
greedy extent of `\s+`, or 0 when `\s+` fails). -/
def wsRunLen : List Char → Nat
  | [] => 0
  | c :: rest => if isSpaceC c then wsRunLen rest + 1 else 0

/-- Whether the position at the head of the given suffix satisfies `\b`
when the character standing there is a word character (true iff the
preceding character is absent or a non-word character; this is the flag
threaded through the scanners). -/
def boundaryAfterB : List Char → Bool
  | [] => true
  | c :: _ => !(isWordCharC c)

/-- One repetition unit of HEX_RUN: `\b[0-9A-Fa-f]{2}\b(?:\s+|$)`,
attempted at the head of `l`.  `b` says whether `\b` holds before the
first character (the caller tracks the preceding character).  Returns the
number of characters consumed.  The alternation prefers the greedy `\s+`;
the MULTILINE `$` branch can only contribute at end of string, because at
an interior line end the `\n` itself is whitespace, so `\s+` (tried
first) already succeeds and never needs to be given back. -/
def hexUnit (b : Bool) (l : List Char) : Option Nat :=
  match l with
  | c1 :: c2 :: rest =>
    if b && isHexDigitC c1 && isHexDigitC c2 && boundaryAfterB rest then
      let w := wsRunLen rest
      if 0 < w then some (2 + w)
      else if rest.isEmpty then some 2
      else none
    else none
  | _ => none

/-- Greedy repetition of `hexUnit` (the `{3,}` body before the count
check): returns (characters consumed, number of units).  Fueled for
executability; each successful unit consumes at least two characters, so
fuel `l.length` is always sufficient. -/
def hexUnitsF : Nat → Bool → List Char → Nat × Nat
  | 0, _, _ => (0, 0)
  | fuel + 1, b, l =>
    match hexUnit b l with
    | none => (0, 0)
    | some k =>
      let r := hexUnitsF fuel true (l.drop k)
      (k + r.1, r.2 + 1)

/-- A HEX_RUN match attempt at the head of `l` (the `{3,}` count check):
`some k` when at least three units match, where `k` is the greedy match
length. -/
def hexRunMatch (b : Bool) (l : List Char) : Option Nat :=
  let r := hexUnitsF l.length b l
  if 3 ≤ r.2 then some r.1 else none

/-- Boundary flag for the position right after a match of length `k`
inside `l` (looks at the last consumed character). -/
def prevFlag (l : List Char) (k : Nat) : Bool :=
  match l.get? (k - 1) with
  | some ch => !(isWordCharC ch)
  | none => true

/-- The worker of `HEX_RUN.finditer`: leftmost scan, emitting half-open
(start, end) spans and resuming after each match (non-overlapping), else
advancing one character.  `l` is the suffix of the text at offset `pos`,
`b` the boundary flag at `pos`.  Fueled; each step consumes at least one
character, so fuel `l.length` is always sufficient. -/
def hexRunScan : Nat → Bool → List Char → Nat → List (Nat × Nat)
  | 0, _, _, _ => []
  | _ + 1, _, [], _ => []
  | fuel + 1, b, c :: rest, pos =>
    match hexRunMatch b (c :: rest) with
    | some k =>
      (pos, pos + k) ::
        hexRunScan fuel (prevFlag (c :: rest) k) ((c :: rest).drop k) (pos + k)
    | none => hexRunScan fuel (!(isWordCharC c)) rest (pos + 1)

/-- Model of `HEX_RUN.finditer(text)`: the list of (m.start(), m.end())
spans, leftmost first. -/
def hexRunSpans (text : List Char) : List (Nat × Nat) :=
  hexRunScan text.length true text 0

/-- Python slice `text[s:e]` for `0 ≤ s ≤ e` (list form). -/
def sliceList (l : List Char) (s e : Nat) : List Char :=
  (l.drop s).take (e - s)

/-- Python `str.rstrip()` on the modelled whitespace class. -/
def rstrip (l : List Char) : List Char :=
  (l.reverse.dropWhile isSpaceC).reverse

/-- Model of `re.findall(r"\b[0-9A-Fa-f]{2}\b", s)`: leftmost
non-overlapping two-hex-digit tokens with word boundaries on both sides.
`b` is the boundary flag before the current position (true at the start
of the string). -/
def findTokens (b : Bool) : List Char → List (List Char)
  | c1 :: c2 :: rest =>
    if b && isHexDigitC c1 && isHexDigitC c2 && boundaryAfterB rest then
      [c1, c2] :: findTokens (!(isWordCharC c2)) rest
    else
      findTokens (!(isWordCharC c1)) (c2 :: rest)
  | _ => []

/-- Numeric value of a hex digit (callers establish `isHexDigitC`). -/
def hexVal (c : Char) : Nat :=
  if '0' ≤ c && c ≤ '9' then c.toNat - '0'.toNat
  else if 'A' ≤ c && c ≤ 'F' then c.toNat - 'A'.toNat + 10
  else if 'a' ≤ c && c ≤ 'f' then c.toNat - 'a'.toNat + 10
  else 0

/-- Model of `bytes.fromhex`: pairs of hex digits to bytes; `none` models
the `ValueError` on an odd-length or non-hex-digit string.  (Python also
skips ASCII spaces between pairs; the only caller passes a join of
two-hex-digit tokens, which never contains spaces.) -/
def bytesFromHex : List Char → Option (List Nat)
  | [] => some []
  | [_] => none
  | c1 :: c2 :: rest =>
    if isHexDigitC c1 && isHexDigitC c2 then
      (bytesFromHex rest).map (fun bs => (hexVal c1 * 16 + hexVal c2) :: bs)
    else none

/-- U+FFFD REPLACEMENT CHARACTER. -/
def uFFFD : Char := Char.ofNat 0xFFFD

/-- Continuation byte test (0x80..0xBF). -/
def isContByte (b : Nat) : Bool := 0x80 ≤ b && b ≤ 0xBF

/-- Allowed second byte after a three-byte lead (tightened ranges for
0xE0 and 0xED exclude overlong encodings and surrogates, as CPython's
UTF-8 decoder does). -/
def utf8Cont2OK (b b2 : Nat) : Bool :=
  if b = 0xE0 then 0xA0 ≤ b2 && b2 ≤ 0xBF
  else if b = 0xED then 0x80 ≤ b2 && b2 ≤ 0x9F
  else isContByte b2

/-- Allowed second byte after a four-byte lead (tightened ranges for 0xF0
and 0xF4). -/
def utf8Cont2OKF (b b2 : Nat) : Bool :=
  if b = 0xF0 then 0x90 ≤ b2 && b2 ≤ 0xBF
  else if b = 0xF4 then 0x80 ≤ b2 && b2 ≤ 0x8F
  else isContByte b2

/-- One step of UTF-8 decoding with `errors="replace"`: decodes one
scalar from lead byte `b` and the remaining bytes, or emits U+FFFD for
the maximal invalid subpart (CPython semantics: an invalid or truncated
sequence consumes its valid prefix and resumes at the offending byte).
Returns the produced character and the remaining input. -/
def utf8Step (b : Nat) (rest : List Nat) : Char × List Nat :=
  if b < 0x80 then (Char.ofNat b, rest)
  else if 0xC2 ≤ b && b ≤ 0xDF then
    match rest with
    | b2 :: rest2 =>
      if isContByte b2 then (Char.ofNat ((b - 0xC0) * 0x40 + (b2 - 0x80)), rest2)
      else (uFFFD, rest)
    | [] => (uFFFD, [])
  else if 0xE0 ≤ b && b ≤ 0xEF then
    match rest with
    | b2 :: rest2 =>
      if utf8Cont2OK b b2 then
        match rest2 with
        | b3 :: rest3 =>
          if isContByte b3 then
            (Char.ofNat (((b - 0xE0) * 0x40 + (b2 - 0x80)) * 0x40 + (b3 - 0x80)), rest3)
          else (uFFFD, rest2)
        | [] => (uFFFD, [])
      else (uFFFD, rest)
    | [] => (uFFFD, [])
  else if 0xF0 ≤ b && b ≤ 0xF4 then
    match rest with
    | b2 :: rest2 =>
      if utf8Cont2OKF b b2 then
        match rest2 with
        | b3 :: rest3 =>
          if isContByte b3 then
            match rest3 with
            | b4 :: rest4 =>
              if isContByte b4 then
                (Char.ofNat ((((b - 0xF0) * 0x40 + (b2 - 0x80)) * 0x40
                  + (b3 - 0x80)) * 0x40 + (b4 - 0x80)), rest4)
              else (uFFFD, rest3)
            | [] => (uFFFD, [])
          else (uFFFD, rest2)
        | [] => (uFFFD, [])
      else (uFFFD, rest)
    | [] => (uFFFD, [])
  else (uFFFD, rest)

/-- Fueled UTF-8 decode-with-replacement loop; each step consumes at
least one byte, so fuel `bs.length` is always sufficient. -/
def utf8DecodeF : Nat → List Nat → List Char
  | 0, _ => []
  | _ + 1, [] => []
  | fuel + 1, b :: rest =>
    (utf8Step b rest).1 :: utf8DecodeF fuel (utf8Step b rest).2

/-- Model of `bytes(...).decode("utf-8", errors="replace")`. -/
def utf8DecodeReplace (bs : List Nat) : List Char :=
  utf8DecodeF bs.length bs

/-- Model of `_decode_hex_bytes` (decoder.py): join the tokens, parse as
hex bytes, decode as UTF-8 with replacement; the `except` fallback
returns the empty string. -/
def decode_hex_bytes (tokens : List (List Char)) : List Char :=
  match bytesFromHex tokens.flatten with
  | some bs => utf8DecodeReplace bs
  | none => []

/-- Model of the `Replacement` dataclass (models.py).  Python's `end` is
a reserved word in Lean, hence `end_`. -/
structure Replacement where
  start : Nat
  end_ : Nat
  hex_run : List Char
  decoded : List Char
deriving DecidableEq

/-- The loop body of `find_replacements` for one `finditer` span: strip
the trailing whitespace from the matched substring, re-extract the
tokens, decode, and emit a `Replacement` unless the decode is empty.
Note that the emitted `hex_run` is `run`, the full match including its
trailing whitespace. -/
def emitReplacement (text : List Char) (se : Nat × Nat) : Option Replacement :=
  let run := sliceList text se.1 se.2
  let run_stripped := rstrip run
  let trailing_ws := run.drop run_stripped.length
  let tokens := findTokens true run_stripped
  let decoded := decode_hex_bytes tokens
  if decoded.isEmpty then none
  else some ⟨se.1, se.2, run, decoded ++ trailing_ws⟩

/-- Model of `find_replacements` (decoder.py). -/
def find_replacements (text : List Char) : List Replacement :=
  (hexRunSpans text).filterMap (emitReplacement text)

/-- Model of `apply_replacements` (decoder.py): the Python loop
`for r in reversed(reps): out = out[:r.start] + r.decoded + out[r.end:]`
applies the last replacement first, which is exactly a right fold. -/
def apply_replacements (text : List Char) (reps : List Replacement) : List Char :=
  if reps.isEmpty then text
  else reps.foldr (fun r out => out.take r.start ++ r.decoded ++ out.drop r.end_) text

/-- Model of the `DecodeResult` dataclass (models.py); the derived
statistics properties are not needed by any claim. -/
structure DecodeResult where
  original : List Char
  decoded : List Char
  replacements : List Replacement
  num_replacements : Nat
deriving DecidableEq

/-- Model of `decode_text` (decoder.py). -/
def decode_text (text : List Char) : DecodeResult :=
  let reps := find_replacements text
  ⟨text, apply_replacements text reps, reps, reps.length⟩

/-!
History store (history.py, models.py).  JSON values, as returned by
`json.load`, are modelled by the dynamic value type `PyVal`; a JSON
object is an association list of string keys.  Python exceptions that
`load_history` does not catch are modelled with `Except`.
-/

/-- Dynamic (JSON-shaped) Python value. -/
inductive PyVal where
  | vNone : PyVal
  | vBool : Bool → PyVal
  | vInt : Int → PyVal
  | vStr : String → PyVal
  | vList : List PyVal → PyVal
  | vDict : List (String × PyVal) → PyVal

/-- Exceptions raised by the history-loading path that the code's
`except (json.JSONDecodeError, IOError)` clause does not catch. -/
inductive PyError where
  | typeError : PyError
  | attributeError : PyError
deriving DecidableEq

/-- Model of the `HistoryEntry` dataclass (models.py): the fields carry
their annotated types (`str`, `int`, `List[Dict[str, Any]]`); the
serialized replacement records stay in dynamic form, as in the source. -/
structure HistoryEntry where
  timestamp : String
  original : String
  decoded : String
  num_replacements : Int
  replacements : List PyVal

/-- Python `d.get(k, default)` specialised to a string-valued field:
returns the stored value when present.  Python's `get` returns the
stored value whatever its type and the dataclass annotation types the
field; the non-string arm realizes the value at the annotated type and
never fires on a dict produced by `to_dict`. -/
def dictGetStr (d : List (String × PyVal)) (k : String) (dflt : String) : String :=
  match d.find? (fun kv => kv.1 == k) with
  | some (_, PyVal.vStr s) => s
  | _ => dflt

/-- Python `d.get(k, default)` specialised to an int-valued field (see
`dictGetStr` for the typing convention). -/
def dictGetInt (d : List (String × PyVal)) (k : String) (dflt : Int) : Int :=
  match d.find? (fun kv => kv.1 == k) with
  | some (_, PyVal.vInt n) => n
  | _ => dflt

/-- Python `d.get(k, default)` specialised to a list-valued field (see
`dictGetStr` for the typing convention). -/
def dictGetList (d : List (String × PyVal)) (k : String) (dflt : List PyVal) :
    List PyVal :=
  match d.find? (fun kv => kv.1 == k) with
  | some (_, PyVal.vList l) => l
  | _ => dflt

/-- Model of `HistoryEntry.from_dict` (models.py). -/
def HistoryEntry.from_dict (d : List (String × PyVal)) : HistoryEntry :=
  ⟨dictGetStr d "timestamp" "",
   dictGetStr d "original" "",
   dictGetStr d "decoded" "",
   dictGetInt d "num_replacements" 0,
   dictGetList d "replacements" []⟩

/-- Model of `HistoryEntry.to_dict` (models.py). -/
def HistoryEntry.to_dict (e : HistoryEntry) : List (String × PyVal) :=
  [("timestamp", PyVal.vStr e.timestamp),
   ("original", PyVal.vStr e.original),
   ("decoded", PyVal.vStr e.decoded),
   ("num_replacements", PyVal.vInt e.num_replacements),
   ("replacements", PyVal.vList e.replacements)]

/-- State of the history file as seen by `load_history`: absent, present
but unreadable (`IOError` on open/read), present but not valid JSON
(`json.JSONDecodeError`), or present with a parsed JSON value. -/
inductive FileState where
  | missing : FileState
  | ioError : FileState
  | badJson : FileState
  | parsed : PyVal → FileState

/-- Python iteration over the parsed top-level value (`for entry in
data`): a list yields its elements, a string its one-character strings, a
dict its keys; other values raise `TypeError`. -/
def pyIterate : PyVal → Except PyError (List PyVal)
  | PyVal.vList l => Except.ok l
  | PyVal.vStr s => Except.ok (s.toList.map (fun c => PyVal.vStr (String.mk [c])))
  | PyVal.vDict d => Except.ok (d.map (fun kv => PyVal.vStr kv.1))
  | _ => Except.error PyError.typeError

/-- `HistoryEntry.from_dict(entry)` on a dynamic value: calling `.get`
on a non-dict raises `AttributeError`. -/
def fromDictDyn : PyVal → Except PyError HistoryEntry
  | PyVal.vDict d => Except.ok (HistoryEntry.from_dict d)
  | _ => Except.error PyError.attributeError

/-- Model of `load_history` (history.py): a missing file yields `[]`;
`json.JSONDecodeError` and `IOError` are caught and yield `[]`; any
other exception raised while building the entry list propagates. -/
def load_history : FileState → Except PyError (List HistoryEntry)
  | FileState.missing => Except.ok []
  | FileState.ioError => Except.ok []
  | FileState.badJson => Except.ok []
  | FileState.parsed v => do
    let items ← pyIterate v
    items.mapM fromDictDyn

/-- `MAX_HISTORY_ENTRIES` (history.py). -/
def MAX_HISTORY_ENTRIES : Nat := 1000

/-- Model of the collection transformation performed by
`add_to_history` (history.py): the loaded collection is `history`, the
freshly constructed entry (timestamped at persist time) is `entry`; the
returned list is what `save_history` persists.  Python's
`history[-MAX:]` on a longer list keeps the last `MAX` elements. -/
def add_to_history (history : List HistoryEntry) (entry : HistoryEntry) :
    List HistoryEntry :=
  let h := history ++ [entry]
  if MAX_HISTORY_ENTRIES < h.length then h.drop (h.length - MAX_HISTORY_ENTRIES)
  else h

/-- The identity test of `delete_history_entry`: the
`(timestamp, original, decoded)` triple matches exactly. -/
def tripleMatchB (e entry : HistoryEntry) : Bool :=
  e.timestamp == entry.timestamp && e.original == entry.original
    && e.decoded == entry.decoded

/-- Model of the collection transformation performed by
`delete_history_entry` (history.py): linear scan for the first entry
whose identity triple matches; returns whether a match was found and the
resulting collection (unchanged when no match exists, in which case the
code does not even rewrite the file). -/
def delete_history_entry : List HistoryEntry → HistoryEntry →
    Bool × List HistoryEntry
  | [], _ => (false, [])
  | e :: rest, entry =>
    if tripleMatchB e entry then (true, rest)
    else
      let r := delete_history_entry rest entry
      (r.1, e :: r.2)

/-!  Sample entries used by closed witnesses. -/

/-- Sample history entry. -/
def entryA : HistoryEntry := ⟨"2024-01-01T00:00:00", "61 62 63", "abc", 1, []⟩

/-- Sample history entry, distinct identity triple from `entryA`. -/
def entryB : HistoryEntry := ⟨"2024-01-02T00:00:00", "64 65 66", "def", 1, []⟩

/-- C10: serializing a `HistoryEntry` to its dictionary form and
deserializing it back yields an entry equal to the original in all five
fields. -/
theorem historyEntry_roundtrip (e : HistoryEntry) :
    HistoryEntry.from_dict e.to_dict = e := by
  cases e
  rfl

/-- C4: appending one entry to a history of at most 1000 entries leaves
at most 1000; appending to exactly 1000 drops exactly the oldest entry,
keeps the rest in order, and puts the new entry last. -/
theorem add_to_history_bound (h : List HistoryEntry) (e : HistoryEntry)
    (hlen : h.length ≤ MAX_HISTORY_ENTRIES) :
    (add_to_history h e).length ≤ MAX_HISTORY_ENTRIES
      ∧ (h.length = MAX_HISTORY_ENTRIES → add_to_history h e = h.tail ++ [e]) := by
  unfold MAX_HISTORY_ENTRIES at hlen
  have hlen1 : (h ++ [e]).length = h.length + 1 := by simp
  simp only [add_to_history, MAX_HISTORY_ENTRIES, hlen1]
  split
  · rename_i hgt
    constructor
    · simp only [List.length_drop, List.length_append, List.length_cons,
        List.length_nil]
      omega
    · intro heq
      have h1 : h.length + 1 - 1000 = 1 := by omega
      have h2 : (1 : Nat) ≤ h.length := by omega
      rw [h1, List.drop_append_of_le_length h2, List.drop_one]
  · rename_i hle
    constructor
    · omega
    · intro heq
      exfalso
      omega

/-- C4 witness: concrete instantiation of `add_to_history_bound`. -/
theorem add_to_history_bound_witness :
    [entryA].length ≤ MAX_HISTORY_ENTRIES
      ∧ ((add_to_history [entryA] entryB).length ≤ MAX_HISTORY_ENTRIES
        ∧ ([entryA].length = MAX_HISTORY_ENTRIES →
            add_to_history [entryA] entryB = [entryA].tail ++ [entryB])) :=
  ⟨by decide, add_to_history_bound [entryA] entryB (by decide)⟩

/-- C5: deletion removes exactly the first entry whose
`(timestamp, original, decoded)` triple matches and reports `true`; with
no match it reports `false` and leaves the collection unchanged. -/
theorem delete_history_entry_spec (h : List HistoryEntry) (entry : HistoryEntry) :
    ((∀ e ∈ h, tripleMatchB e entry = false) →
        delete_history_entry h entry = (false, h))
      ∧ (∀ pre e post, h = pre ++ e :: post →
          (∀ x ∈ pre, tripleMatchB x entry = false) →
          tripleMatchB e entry = true →
          delete_history_entry h entry = (true, pre ++ post)) := by
  induction h with
  | nil =>
    refine ⟨fun _ => rfl, fun pre e post hsplit _ _ => ?_⟩
    exact absurd hsplit (by simp)
  | cons a t ih =>
    constructor
    · intro hnone
      have ha : tripleMatchB a entry = false := hnone a (by simp)
      have ht := ih.1 (fun e he => hnone e (by simp [he]))
      simp [delete_history_entry, ha, ht]
    · intro pre e post hsplit hpre hmatch
      cases pre with
      | nil =>
        simp only [List.nil_append] at hsplit ⊢
        obtain ⟨rfl, rfl⟩ : a = e ∧ t = post := by
          simpa using hsplit
        simp [delete_history_entry, hmatch]
      | cons p pre' =>
        obtain ⟨rfl, rfl⟩ : a = p ∧ t = pre' ++ e :: post := by
          simpa using hsplit
        have hp : tripleMatchB a entry = false := hpre a (by simp)
        have ht := ih.2 pre' e post rfl (fun x hx => hpre x (by simp [hx])) hmatch
        simp [delete_history_entry, hp, ht]

/-- C5 witness: concrete instantiation of `delete_history_entry_spec`:
with duplicates present, only the first match is removed. -/
theorem delete_history_entry_spec_witness :
    ([entryA] : List HistoryEntry) ++ entryB :: [entryB] = [entryA, entryB, entryB]
      ∧ (∀ x ∈ [entryA], tripleMatchB x entryB = false)
      ∧ tripleMatchB entryB entryB = true
      ∧ delete_history_entry [entryA, entryB, entryB] entryB = (true, [entryA, entryB]) := by
  refine ⟨rfl, ?_, by decide, ?_⟩
  · intro x hx
    simp only [List.mem_singleton] at hx
    subst hx
    decide
  · exact (delete_history_entry_spec [entryA, entryB, entryB] entryB).2
      [entryA] entryB [entryB] rfl
      (by intro x hx; simp only [List.mem_singleton] at hx; subst hx; decide)
      (by decide)

/-- C2 counterexample: a file whose content is valid JSON but not the
expected collection (here the JSON number 0) makes `load_history` raise
an uncaught `TypeError` instead of returning an empty collection. -/
theorem load_history_raises_on_nonlist_json :
    load_history (FileState.parsed (PyVal.vInt 0)) = Except.error PyError.typeError :=
  rfl

/-- C2 amended: `load_history` returns an empty collection, without
raising, when the file is missing, unreadable, or fails JSON parsing;
(valid JSON of an unexpected shape is outside the caught exceptions). -/
theorem load_history_empty_on_missing_or_corrupt :
    load_history FileState.missing = Except.ok []
      ∧ load_history FileState.ioError = Except.ok []
      ∧ load_history FileState.badJson = Except.ok [] :=
  ⟨rfl, rfl, rfl⟩

/-- C8: decoding is a pure, deterministic function of the input text:
two invocations on the same text give equal results, the result's
`original` is the input, and `num_replacements` counts `replacements`.
In this embedding purity holds by construction, as in the source, which
touches no shared mutable state. -/
theorem decode_text_deterministic (t : List Char) :
    decode_text t = decode_text t
      ∧ (decode_text t).original = t
      ∧ (decode_text t).decoded = apply_replacements t (find_replacements t)
      ∧ (decode_text t).num_replacements = (decode_text t).replacements.length :=
  ⟨rfl, rfl, rfl, rfl⟩

/-!  Elementary facts about the HEX_RUN scanner. -/

theorem wsRunLen_le (l : List Char) : wsRunLen l ≤ l.length := by
  induction l with
  | nil => simp [wsRunLen]
  | cons c rest ih =>
    simp only [wsRunLen, List.length_cons]
    split
    · omega
    · omega

theorem wsRunLen_spaces (l : List Char) :
    ∀ c ∈ l.take (wsRunLen l), isSpaceC c = true := by
  induction l with
  | nil => simp
  | cons c rest ih =>
    simp only [wsRunLen]
    split
    · rename_i hc
      intro x hx
      rw [List.take_succ_cons] at hx
      rcases List.mem_cons.mp hx with rfl | hx
      · exact hc
      · exact ih x hx
    · simp

theorem hexUnit_le {b : Bool} {l : List Char} {k : Nat}
    (h : hexUnit b l = some k) : 2 ≤ k ∧ k ≤ l.length := by
  cases l with
  | nil => simp [hexUnit] at h
  | cons c1 t =>
    cases t with
    | nil => simp [hexUnit] at h
    | cons c2 rest =>
      have hw := wsRunLen_le rest
      simp only [hexUnit] at h
      split at h
      · split at h
        · obtain rfl : 2 + wsRunLen rest = k := by simpa using h
          simp only [List.length_cons]
          omega
        · split at h
          · obtain rfl : 2 = k := by simpa using h
            simp only [List.length_cons]
            omega
          · simp at h
      · simp at h

theorem hexUnitsF_fst_le :
    ∀ (fuel : Nat) (b : Bool) (l : List Char), (hexUnitsF fuel b l).1 ≤ l.length := by
  intro fuel
  induction fuel with
  | zero => intro b l; simp [hexUnitsF]
  | succ fuel ih =>
    intro b l
    simp only [hexUnitsF]
    cases hu : hexUnit b l with
    | none => simp
    | some k =>
      have hk := hexUnit_le hu
      have hrec := ih true (l.drop k)
      simp only [List.length_drop] at hrec
      simp only []
      omega

theorem hexUnitsF_snd_zero :
    ∀ (fuel : Nat) (b : Bool) (l : List Char),
      (hexUnitsF fuel b l).2 = 0 → (hexUnitsF fuel b l).1 = 0 := by
  intro fuel b l
  cases fuel with
  | zero => simp [hexUnitsF]
  | succ fuel =>
    simp only [hexUnitsF]
    cases hu : hexUnit b l with
    | none => simp
    | some k => simp

theorem hexUnitsF_fst_pos :
    ∀ (fuel : Nat) (b : Bool) (l : List Char),
      1 ≤ (hexUnitsF fuel b l).2 → 2 ≤ (hexUnitsF fuel b l).1 := by
  intro fuel b l
  cases fuel with
  | zero => simp [hexUnitsF]
  | succ fuel =>
    simp only [hexUnitsF]
    cases hu : hexUnit b l with
    | none => simp
    | some k =>
      intro _
      have hk := hexUnit_le hu
      simp only []
      omega

theorem hexRunMatch_le {b : Bool} {l : List Char} {k : Nat}
    (h : hexRunMatch b l = some k) : 2 ≤ k ∧ k ≤ l.length := by
  simp only [hexRunMatch] at h
  split at h
  · rename_i hcount
    obtain rfl : (hexUnitsF l.length b l).1 = k := by simpa using h
    exact ⟨hexUnitsF_fst_pos _ _ _ (by omega), hexUnitsF_fst_le _ _ _⟩
  · simp at h

/-- Every span emitted by a scan from offset `pos` over suffix `l` lies
in `[pos, pos + l.length]`, is non-degenerate, and the spans are emitted
left to right without overlap. -/
theorem hexRunScan_bounds :
    ∀ (fuel : Nat) (b : Bool) (l : List Char) (pos : Nat),
      (∀ p ∈ hexRunScan fuel b l pos, pos ≤ p.1 ∧ p.1 < p.2 ∧ p.2 ≤ pos + l.length)
        ∧ List.Chain' (fun x y : Nat × Nat => x.2 ≤ y.1) (hexRunScan fuel b l pos) := by
  intro fuel
  induction fuel with
  | zero => intro b l pos; simp [hexRunScan]
  | succ fuel ih =>
    intro b l pos
    cases l with
    | nil => simp [hexRunScan]
    | cons c rest =>
      simp only [hexRunScan]
      cases hm : hexRunMatch b (c :: rest) with
      | none =>
        have h := ih (!(isWordCharC c)) rest (pos + 1)
        refine ⟨fun p hp => ?_, h.2⟩
        have := h.1 p hp
        simp only [List.length_cons]
        omega
      | some k =>
        have hk := hexRunMatch_le hm
        simp only [List.length_cons] at hk
        have h := ih (prevFlag (c :: rest) k) ((c :: rest).drop k) (pos + k)
        simp only [List.length_drop, List.length_cons] at h
        constructor
        · intro p hp
          rcases List.mem_cons.mp hp with rfl | hp
          · simp only [List.length_cons]
            omega
          · have := h.1 p hp
            simp only [List.length_cons]
            omega
        · rw [List.chain'_cons']
          refine ⟨fun y hy => ?_, h.2⟩
          have hmem : y ∈ hexRunScan fuel (prevFlag (c :: rest) k)
              ((c :: rest).drop k) (pos + k) := List.mem_of_mem_head? hy
          have := h.1 y hmem
          simp only []
          omega

/-- Every span emitted by a scan is a HEX_RUN match of the corresponding
suffix of the scanned list (for some boundary flag). -/
theorem hexRunScan_match :
    ∀ (fuel : Nat) (b : Bool) (l : List Char) (pos : Nat) (s e : Nat),
      (s, e) ∈ hexRunScan fuel b l pos →
      ∃ b', hexRunMatch b' (l.drop (s - pos)) = some (e - s) := by
  intro fuel
  induction fuel with
  | zero => intro b l pos s e h; simp [hexRunScan] at h
  | succ fuel ih =>
    intro b l pos s e h
    cases l with
    | nil => simp [hexRunScan] at h
    | cons c rest =>
      simp only [hexRunScan] at h
      cases hm : hexRunMatch b (c :: rest) with
      | none =>
        rw [hm] at h
        have hb := (hexRunScan_bounds fuel (!(isWordCharC c)) rest (pos + 1)).1
          (s, e) h
        obtain ⟨b', hb'⟩ := ih (!(isWordCharC c)) rest (pos + 1) s e h
        refine ⟨b', ?_⟩
        have hs : rest.drop (s - (pos + 1)) = (c :: rest).drop (s - pos) := by
          have h1 : s - pos = (s - (pos + 1)) + 1 := by omega
          rw [h1]
          rfl
        rwa [hs] at hb'
      | some k =>
        rw [hm] at h
        have hk := hexRunMatch_le hm
        rcases List.mem_cons.mp h with heq | h
        · have h1 : s = pos := congrArg Prod.fst heq
          have h2 : e = pos + k := congrArg Prod.snd heq
          refine ⟨b, ?_⟩
          rw [h1, h2, Nat.sub_self, List.drop_zero, Nat.add_sub_cancel_left]
          exact hm
        · have hb := (hexRunScan_bounds fuel (prevFlag (c :: rest) k)
            ((c :: rest).drop k) (pos + k)).1 (s, e) h
          obtain ⟨b', hb'⟩ := ih _ _ _ s e h
          refine ⟨b', ?_⟩
          rw [List.drop_drop] at hb'
          have h1 : k + (s - (pos + k)) = s - pos := by omega
          rwa [h1] at hb'

/-!  Character class facts. -/

theorem space_not_hex {c : Char} (h : isSpaceC c = true) : isHexDigitC c = false := by
  simp only [isSpaceC, Bool.or_eq_true, decide_eq_true_eq] at h
  rcases h with ((((h | h) | h) | h) | h) | h <;> subst h <;> decide

theorem space_not_word {c : Char} (h : isSpaceC c = true) : isWordCharC c = false := by
  simp only [isSpaceC, Bool.or_eq_true, decide_eq_true_eq] at h
  rcases h with ((((h | h) | h) | h) | h) | h <;> subst h <;> decide

theorem hex_not_space {c : Char} (h : isHexDigitC c = true) : isSpaceC c = false := by
  cases hs : isSpaceC c with
  | false => rfl
  | true => rw [space_not_hex hs] at h; exact absurd h (by simp)

/-!  Structure of a HEX_RUN match (claim C9): a matched extent is a
sequence of hex pairs separated by nonempty whitespace, the final pair
followed by possibly-empty whitespace. -/

/-- `RunUnits n run` says `run` consists of exactly `n` repetition units
of the HEX_RUN pattern: each unit a hex pair followed by whitespace,
nonempty between units and possibly empty at the very end. -/
inductive RunUnits : Nat → List Char → Prop where
  | last : ∀ (c1 c2 : Char) (ws : List Char),
      isHexDigitC c1 = true → isHexDigitC c2 = true →
      (∀ c ∈ ws, isSpaceC c = true) → RunUnits 1 (c1 :: c2 :: ws)
  | cons : ∀ (c1 c2 : Char) (ws : List Char) (n : Nat) (rest : List Char),
      isHexDigitC c1 = true → isHexDigitC c2 = true → ws ≠ [] →
      (∀ c ∈ ws, isSpaceC c = true) → RunUnits n rest →
      RunUnits (n + 1) (c1 :: c2 :: (ws ++ rest))

theorem hexUnit_structure {b : Bool} {l : List Char} {k : Nat}
    (h : hexUnit b l = some k) :
    ∃ c1 c2 rest, l = c1 :: c2 :: rest ∧ isHexDigitC c1 = true
      ∧ isHexDigitC c2 = true ∧ k = 2 + wsRunLen rest
      ∧ (rest ≠ [] → 0 < wsRunLen rest) := by
  cases l with
  | nil => simp [hexUnit] at h
  | cons c1 t =>
    cases t with
    | nil => simp [hexUnit] at h
    | cons c2 rest =>
      simp only [hexUnit] at h
      split at h
      · rename_i hcond
        simp only [Bool.and_eq_true] at hcond
        refine ⟨c1, c2, rest, rfl, hcond.1.1.2, hcond.1.2, ?_⟩
        split at h
        · obtain rfl : 2 + wsRunLen rest = k := by simpa using h
          rename_i hw
          exact ⟨rfl, fun _ => hw⟩
        · split at h
          · rename_i hw hemp
            obtain rfl : 2 = k := by simpa using h
            obtain rfl : rest = [] := by simpa using hemp
            exact ⟨by simp [wsRunLen], fun hne => absurd rfl hne⟩
          · simp at h
      · simp at h

theorem hexUnitsF_nil (fuel : Nat) (b : Bool) : hexUnitsF fuel b [] = (0, 0) := by
  cases fuel with
  | zero => rfl
  | succ fuel => simp [hexUnitsF, hexUnit]

theorem hexUnitsF_runUnits :
    ∀ (fuel : Nat) (b : Bool) (l : List Char),
      1 ≤ (hexUnitsF fuel b l).2 →
      RunUnits (hexUnitsF fuel b l).2 (l.take (hexUnitsF fuel b l).1) := by
  intro fuel
  induction fuel with
  | zero => intro b l h; simp [hexUnitsF] at h
  | succ fuel ih =>
    intro b l h
    rw [hexUnitsF] at h ⊢
    cases hu : hexUnit b l with
    | none => rw [hu] at h; simp at h
    | some k0 =>
      dsimp only at h ⊢
      obtain ⟨c1, c2, rest, rfl, h1, h2, hk0, himp⟩ := hexUnit_structure hu
      cases hr2 : (hexUnitsF fuel true ((c1 :: c2 :: rest).drop k0)).2 with
      | zero =>
        have hr1 := hexUnitsF_snd_zero fuel true ((c1 :: c2 :: rest).drop k0) hr2
        have hidx : k0 + (hexUnitsF fuel true ((c1 :: c2 :: rest).drop k0)).1
            = (wsRunLen rest + 1) + 1 := by omega
        rw [hidx, List.take_succ_cons, List.take_succ_cons]
        exact RunUnits.last c1 c2 _ h1 h2 (wsRunLen_spaces rest)
      | succ m =>
        have hdrop : (c1 :: c2 :: rest).drop k0 = rest.drop (wsRunLen rest) := by
          rw [hk0, show 2 + wsRunLen rest = (wsRunLen rest + 1) + 1 by omega]
          simp [List.drop_succ_cons]
        have hrestne : rest ≠ [] := by
          intro hrest
          rw [hdrop, hrest, List.drop_nil, hexUnitsF_nil] at hr2
          simp at hr2
        have hw : 0 < wsRunLen rest := himp hrestne
        have hrec := ih true ((c1 :: c2 :: rest).drop k0) (by omega)
        rw [hr2] at hrec
        have hidx : k0 + (hexUnitsF fuel true ((c1 :: c2 :: rest).drop k0)).1
            = ((wsRunLen rest
              + (hexUnitsF fuel true ((c1 :: c2 :: rest).drop k0)).1) + 1) + 1 := by
          omega
        rw [hidx, List.take_succ_cons, List.take_succ_cons, List.take_add]
        refine RunUnits.cons c1 c2 _ _ _ h1 h2 ?_ (wsRunLen_spaces rest) ?_
        · have hlen : (rest.take (wsRunLen rest)).length = wsRunLen rest := by
            rw [List.length_take]
            have := wsRunLen_le rest
            omega
          intro hnil
          rw [hnil] at hlen
          simp at hlen
          omega
        · rw [← hdrop]
          exact hrec

/-!  Token re-extraction on a stripped run (claim C9). -/

theorem rstrip_append {a b : List Char} (hb : rstrip b ≠ []) :
    rstrip (a ++ b) = a ++ rstrip b := by
  unfold rstrip at *
  have hb' : (b.reverse.dropWhile isSpaceC).isEmpty = false := by
    rcases h : b.reverse.dropWhile isSpaceC with _ | ⟨x, xs⟩
    · rw [h] at hb; simp at hb
    · simp
  rw [List.reverse_append, List.dropWhile_append, hb']
  simp

theorem rstrip_pair {c1 c2 : Char} {ws : List Char} (h2 : isSpaceC c2 = false)
    (hws : ∀ c ∈ ws, isSpaceC c = true) : rstrip (c1 :: c2 :: ws) = [c1, c2] := by
  unfold rstrip
  have h1 : (c1 :: c2 :: ws).reverse = ws.reverse ++ [c2, c1] := by simp
  have hwsnil : ws.reverse.dropWhile isSpaceC = [] :=
    List.dropWhile_eq_nil_iff.mpr (fun x hx => hws x (List.mem_reverse.mp hx))
  rw [h1, List.dropWhile_append, hwsnil]
  simp [List.dropWhile_cons, h2]

theorem findTokens_space_prefix :
    ∀ (ws : List Char) (b : Bool) (d1 d2 : Char) (tl : List Char),
      ws ≠ [] → (∀ c ∈ ws, isSpaceC c = true) →
      findTokens b (ws ++ d1 :: d2 :: tl) = findTokens true (d1 :: d2 :: tl) := by
  intro ws
  induction ws with
  | nil => intro b d1 d2 tl hne _; exact absurd rfl hne
  | cons w ws' ih =>
    intro b d1 d2 tl _ hsp
    have hw : isSpaceC w = true := hsp w (by simp)
    cases ws' with
    | nil =>
      show findTokens b (w :: d1 :: d2 :: tl) = _
      rw [findTokens]
      simp [space_not_hex hw, space_not_word hw]
    | cons w2 ws'' =>
      show findTokens b (w :: (w2 :: ws'' ++ d1 :: d2 :: tl)) = _
      rw [show (w2 :: ws'' ++ d1 :: d2 :: tl : List Char)
        = w2 :: (ws'' ++ d1 :: d2 :: tl) from rfl]
      rw [findTokens]
      simp only [space_not_hex hw, space_not_word hw, Bool.false_and,
        Bool.and_false, Bool.not_false, if_false]
      exact ih true d1 d2 tl (by simp) (fun c hc => hsp c (by simp [hc]))

theorem runUnits_tokens {n : Nat} {run : List Char} (h : RunUnits n run) :
    (∃ d1 d2 tl, rstrip run = d1 :: d2 :: tl)
      ∧ (findTokens true (rstrip run)).length = n := by
  induction h with
  | last c1 c2 ws h1 h2 hws =>
    have hr : rstrip (c1 :: c2 :: ws) = [c1, c2] :=
      rstrip_pair (hex_not_space h2) hws
    rw [hr]
    refine ⟨⟨c1, c2, [], rfl⟩, ?_⟩
    rw [findTokens]
    simp [h1, h2, boundaryAfterB, findTokens]
  | cons c1 c2 ws n rest h1 h2 hne hws hrest ih =>
    obtain ⟨⟨d1, d2, tl, hshape⟩, hlen⟩ := ih
    have hrne : rstrip rest ≠ [] := by rw [hshape]; simp
    have hr : rstrip (c1 :: c2 :: (ws ++ rest)) = c1 :: c2 :: (ws ++ rstrip rest) := by
      have hsplit : c1 :: c2 :: (ws ++ rest) = (c1 :: c2 :: ws) ++ rest := by simp
      rw [hsplit, rstrip_append hrne]
      simp
    rw [hr]
    refine ⟨⟨c1, c2, ws ++ rstrip rest, rfl⟩, ?_⟩
    obtain ⟨w0, ws', rfl⟩ : ∃ w0 ws', ws = w0 :: ws' := by
      cases ws with
      | nil => exact absurd rfl hne
      | cons a bs => exact ⟨a, bs, rfl⟩
    have hw0 : isSpaceC w0 = true := hws w0 (by simp)
    have hba : boundaryAfterB ((w0 :: ws') ++ rstrip rest) = true := by
      simp [boundaryAfterB, space_not_word hw0]
    rw [findTokens]
    simp only [h1, h2, hba, Bool.and_true, Bool.true_and, Bool.and_self, if_true]
    rw [hshape, findTokens_space_prefix (w0 :: ws') _ d1 d2 tl (by simp)
      (fun c hc => hws c hc), ← hshape, List.length_cons, hlen]

theorem findTokens_pairs :
    ∀ (l : List Char) (b : Bool) (t : List Char), t ∈ findTokens b l →
      ∃ a c, t = [a, c] ∧ isHexDigitC a = true ∧ isHexDigitC c = true
  | [], _, t, h => by simp [findTokens] at h
  | [_], _, t, h => by simp [findTokens] at h
  | c1 :: c2 :: rest, b, t, h => by
    rw [findTokens] at h
    split at h
    · rename_i hcond
      simp only [Bool.and_eq_true] at hcond
      rcases List.mem_cons.mp h with rfl | h
      · exact ⟨c1, c2, rfl, hcond.1.1.2, hcond.1.2⟩
      · exact findTokens_pairs rest _ t h
    · exact findTokens_pairs (c2 :: rest) _ t h

theorem bytesFromHex_tokens :
    ∀ tokens : List (List Char),
      (∀ t ∈ tokens, ∃ a c, t = [a, c] ∧ isHexDigitC a = true ∧ isHexDigitC c = true) →
      ∃ bs, bytesFromHex tokens.flatten = some bs ∧ bs.length = tokens.length := by
  intro tokens
  induction tokens with
  | nil => intro _; exact ⟨[], rfl, rfl⟩
  | cons t ts ih =>
    intro h
    obtain ⟨a, c, rfl, ha, hc⟩ := h t (by simp)
    obtain ⟨bs, hbs, hlen⟩ := ih (fun x hx => h x (by simp [hx]))
    refine ⟨(hexVal a * 16 + hexVal c) :: bs, ?_, by simp [hlen]⟩
    have hfl : ([a, c] :: ts).flatten = a :: c :: ts.flatten := by simp
    rw [hfl, bytesFromHex, hbs]
    simp [ha, hc]

theorem utf8DecodeReplace_ne_nil {bs : List Nat} (h : bs ≠ []) :
    utf8DecodeReplace bs ≠ [] := by
  cases bs with
  | nil => exact absurd rfl h
  | cons b rest => simp [utf8DecodeReplace, utf8DecodeF]

theorem decode_hex_bytes_ne_nil {tokens : List (List Char)} (hne : tokens ≠ [])
    (hpairs : ∀ t ∈ tokens,
      ∃ a c, t = [a, c] ∧ isHexDigitC a = true ∧ isHexDigitC c = true) :
    decode_hex_bytes tokens ≠ [] := by
  obtain ⟨bs, hbs, hlen⟩ := bytesFromHex_tokens tokens hpairs
  have hbsne : bs ≠ [] := by
    intro hb
    rw [hb] at hlen
    exact hne (List.length_eq_zero.mp hlen.symm)
  rw [decode_hex_bytes, hbs]
  exact utf8DecodeReplace_ne_nil hbsne

/-- The tokens re-extracted from a matched, stripped span: at least
three, as the run has at least three units. -/
theorem span_tokens (text : List Char) (s e : Nat)
    (hm : (s, e) ∈ hexRunSpans text) :
    3 ≤ (findTokens true (rstrip (sliceList text s e))).length := by
  obtain ⟨b', hb'⟩ := hexRunScan_match text.length true text 0 s e hm
  rw [Nat.sub_zero] at hb'
  rw [hexRunMatch] at hb'
  split at hb'
  · rename_i hcount
    have heq : (hexUnitsF (text.drop s).length b' (text.drop s)).1 = e - s := by
      simpa using hb'
    have hrun := hexUnitsF_runUnits (text.drop s).length b' (text.drop s)
      (by omega)
    rw [heq] at hrun
    have htok := (runUnits_tokens hrun).2
    rw [sliceList]
    omega
  · simp at hb'

/-- On a matched span the emitted replacement is never dropped: the
token list is nonempty, `bytes.fromhex` succeeds, and the decode is
nonempty. -/
theorem emitReplacement_isSome (text : List Char) (p : Nat × Nat)
    (hp : p ∈ hexRunSpans text) : emitReplacement text p ≠ none := by
  have htok := span_tokens text p.1 p.2 hp
  have hne : findTokens true (rstrip (sliceList text p.1 p.2)) ≠ [] := by
    intro h
    rw [h] at htok
    simp at htok
  have hdec := decode_hex_bytes_ne_nil hne
    (fun t ht => findTokens_pairs _ _ t ht)
  rw [emitReplacement]
  split
  · rename_i hemp
    exact absurd (List.isEmpty_iff.mp hemp) hdec
  · simp

theorem length_filterMap_of_forall_some {α β : Type} (f : α → Option β) :
    ∀ l : List α, (∀ x ∈ l, f x ≠ none) → (l.filterMap f).length = l.length := by
  intro l
  induction l with
  | nil => intro _; rfl
  | cons x xs ih =>
    intro h
    cases hx : f x with
    | none => exact absurd hx (h x (by simp))
    | some y =>
      rw [List.filterMap_cons_some hx, List.length_cons,
        ih (fun z hz => h z (by simp [hz]))]
      simp

/-- C9: every HEX_RUN match re-tokenizes to at least three hex pairs,
`bytes.fromhex` on their join succeeds, the UTF-8 decode with
replacement is nonempty (so the `except`/empty-decode fallback of
`_decode_hex_bytes` is unreachable), and `find_replacements` emits a
replacement for every matched run. -/
theorem hex_run_always_decodes (text : List Char) (s e : Nat)
    (hm : (s, e) ∈ hexRunSpans text) :
    3 ≤ (findTokens true (rstrip (sliceList text s e))).length
      ∧ bytesFromHex (findTokens true (rstrip (sliceList text s e))).flatten ≠ none
      ∧ decode_hex_bytes (findTokens true (rstrip (sliceList text s e))) ≠ []
      ∧ (find_replacements text).length = (hexRunSpans text).length := by
  have htok := span_tokens text s e hm
  have hne : findTokens true (rstrip (sliceList text s e)) ≠ [] := by
    intro h
    rw [h] at htok
    simp at htok
  obtain ⟨bs, hbs, _⟩ := bytesFromHex_tokens _
    (fun t ht => findTokens_pairs _ _ t ht)
  refine ⟨htok, ?_, ?_, ?_⟩
  · rw [hbs]; simp
  · exact decode_hex_bytes_ne_nil hne (fun t ht => findTokens_pairs _ _ t ht)
  · exact length_filterMap_of_forall_some _ _ (emitReplacement_isSome text)

/-- C9 witness: concrete instantiation of `hex_run_always_decodes`. -/
theorem hex_run_always_decodes_witness :
    ((0, 9) : Nat × Nat) ∈ hexRunSpans ("65 68 6f x".toList)
      ∧ (3 ≤ (findTokens true (rstrip (sliceList ("65 68 6f x".toList) 0 9))).length
        ∧ bytesFromHex
            (findTokens true (rstrip (sliceList ("65 68 6f x".toList) 0 9))).flatten ≠ none
        ∧ decode_hex_bytes
            (findTokens true (rstrip (sliceList ("65 68 6f x".toList) 0 9))) ≠ []
        ∧ (find_replacements ("65 68 6f x".toList)).length
            = (hexRunSpans ("65 68 6f x".toList)).length) :=
  ⟨by decide, hex_run_always_decodes _ 0 9 (by decide)⟩

/-!  From spans to replacements (claims C3, C1). -/

theorem emitReplacement_some {text : List Char} {p : Nat × Nat} {r : Replacement}
    (h : emitReplacement text p = some r) :
    r.start = p.1 ∧ r.end_ = p.2 ∧ r.hex_run = sliceList text p.1 p.2
      ∧ r.decoded =
          decode_hex_bytes (findTokens true (rstrip (sliceList text p.1 p.2)))
            ++ (sliceList text p.1 p.2).drop (rstrip (sliceList text p.1 p.2)).length := by
  simp only [emitReplacement] at h
  split at h
  · simp at h
  · obtain rfl : _ = r := by simpa using h
    exact ⟨rfl, rfl, rfl, rfl⟩

theorem chain_spans_lb :
    ∀ (rest : List (Nat × Nat)) (p : Nat × Nat),
      List.Chain' (fun x y : Nat × Nat => x.2 ≤ y.1) (p :: rest) →
      (∀ q ∈ rest, q.1 < q.2) →
      ∀ q ∈ rest, p.2 ≤ q.1 := by
  intro rest
  induction rest with
  | nil => intro p _ _ q hq; simp at hq
  | cons q0 rest ih =>
    intro p hch hlt q hq
    have h1 : p.2 ≤ q0.1 := (List.chain'_cons.mp hch).1
    rcases List.mem_cons.mp hq with rfl | hq
    · exact h1
    · have h2 := ih q0 (List.chain'_cons.mp hch).2
        (fun x hx => hlt x (by simp [hx])) q hq
      have h3 : q0.1 < q0.2 := hlt q0 (by simp)
      omega

theorem filterMap_emit_chain :
    ∀ (spans : List (Nat × Nat)) (text : List Char),
      (∀ p ∈ spans, p.1 < p.2) →
      List.Chain' (fun x y : Nat × Nat => x.2 ≤ y.1) spans →
      List.Chain' (fun a b : Replacement => a.end_ ≤ b.start)
        (spans.filterMap (emitReplacement text)) := by
  intro spans
  induction spans with
  | nil => intro text _ _; simp
  | cons p rest ih =>
    intro text hlt hch
    cases he : emitReplacement text p with
    | none =>
      rw [List.filterMap_cons_none he]
      exact ih text (fun q hq => hlt q (by simp [hq])) hch.tail
    | some r =>
      rw [List.filterMap_cons_some he]
      rw [List.chain'_cons']
      refine ⟨fun y hy => ?_, ih text (fun q hq => hlt q (by simp [hq])) hch.tail⟩
      have hymem := List.mem_of_mem_head? hy
      obtain ⟨q, hq, hqe⟩ := List.mem_filterMap.mp hymem
      have hinvy := emitReplacement_some hqe
      have hinvr := emitReplacement_some he
      have hlb := chain_spans_lb rest p hch
        (fun x hx => hlt x (by simp [hx])) q hq
      omega

/-- C3: every replacement returned by `find_replacements` has a
non-degenerate span inside the text whose slice is `hex_run`, and the
returned list is in left-to-right order with pairwise disjoint spans
(`0 ≤ start` holds by the `Nat` type of offsets). -/
theorem find_replacements_invariants (text : List Char) (r : Replacement)
    (hr : r ∈ find_replacements text) :
    (r.start < r.end_ ∧ r.end_ ≤ text.length
        ∧ sliceList text r.start r.end_ = r.hex_run)
      ∧ List.Chain' (fun a b : Replacement => a.end_ ≤ b.start)
          (find_replacements text) := by
  have hbounds := hexRunScan_bounds text.length true text 0
  constructor
  · obtain ⟨p, hp, he⟩ := List.mem_filterMap.mp hr
    have hb := hbounds.1 p hp
    have hinv := emitReplacement_some he
    refine ⟨?_, ?_, ?_⟩
    · omega
    · omega
    · rw [hinv.1, hinv.2.1]
      exact hinv.2.2.1.symm
  · exact filterMap_emit_chain (hexRunSpans text) text
      (fun q hq => (hbounds.1 q hq).2.1) hbounds.2

/-- Sample input and replacement for the C3 witness. -/
def wText : List Char := "65 68 6f".toList

/-- The single replacement `find_replacements` returns on `wText`. -/
def wRep : Replacement := ⟨0, 8, "65 68 6f".toList, "eho".toList⟩

/-- C3 witness: concrete instantiation of `find_replacements_invariants`. -/
theorem find_replacements_invariants_witness :
    wRep ∈ find_replacements wText
      ∧ ((wRep.start < wRep.end_ ∧ wRep.end_ ≤ wText.length
            ∧ sliceList wText wRep.start wRep.end_ = wRep.hex_run)
        ∧ List.Chain' (fun a b : Replacement => a.end_ ≤ b.start)
            (find_replacements wText)) :=
  ⟨by decide, find_replacements_invariants wText wRep (by decide)⟩

/-- Input with a hex run carrying trailing whitespace inside the match
(the scanner's greedy `\s+` includes the space before `x`). -/
def cexText : List Char := "65 68 6f x".toList

/-- The replacement `find_replacements` emits on `cexText`: its
`hex_run` keeps the trailing space of the match. -/
def cexRep : Replacement := ⟨0, 9, "65 68 6f ".toList, "eho ".toList⟩

/-- C1 counterexample: `find_replacements` stores the full match `run`
in `hex_run`, not the trailing-whitespace-stripped `run_stripped`: on
`"65 68 6f x"` the emitted replacement's `hex_run` is `"65 68 6f "` and
differs from the stripped matched substring `"65 68 6f"`. -/
theorem hex_run_includes_trailing_ws :
    ∃ r ∈ find_replacements cexText,
      r.hex_run ≠ rstrip (sliceList cexText r.start r.end_) := by decide

/-- C1 amended: `hex_run` is the exact full matched substring
`text[start:end]`, including any trailing whitespace; the stripping
shows up only in `decoded`, which is the decode of the stripped run's
tokens with the stripped trailing whitespace re-appended. -/
theorem hex_run_full_match (text : List Char) (r : Replacement)
    (hr : r ∈ find_replacements text) :
    r.hex_run = sliceList text r.start r.end_
      ∧ r.decoded = decode_hex_bytes (findTokens true (rstrip r.hex_run))
          ++ r.hex_run.drop (rstrip r.hex_run).length := by
  obtain ⟨p, hp, he⟩ := List.mem_filterMap.mp hr
  have hinv := emitReplacement_some he
  refine ⟨?_, ?_⟩
  · rw [hinv.1, hinv.2.1]
    exact hinv.2.2.1
  · rw [hinv.2.2.1]
    exact hinv.2.2.2

/-- C1 witness: concrete instantiation of `hex_run_full_match`. -/
theorem hex_run_full_match_witness :
    cexRep ∈ find_replacements cexText
      ∧ (cexRep.hex_run = sliceList cexText cexRep.start cexRep.end_
        ∧ cexRep.decoded = decode_hex_bytes (findTokens true (rstrip cexRep.hex_run))
            ++ cexRep.hex_run.drop (rstrip cexRep.hex_run).length) :=
  ⟨by decide, hex_run_full_match cexText cexRep (by decide)⟩

/-!  Substitution as segment interleaving (claim C6). -/

/-- Modelled from the spec's words, as the refinement target for
`apply_replacements`: the concatenation of the untouched text segments
interleaved with the decoded strings, left to right; `p` is the position
reached so far. -/
def specSegments (text : List Char) : Nat → List Replacement → List Char
  | p, [] => text.drop p
  | p, r :: rs => (text.drop p).take (r.start - p) ++ r.decoded ++ specSegments text r.end_ rs

/-- Start offset of the first replacement, or a default for the empty
list. -/
def headStart (rs : List Replacement) (dflt : Nat) : Nat :=
  match rs with
  | [] => dflt
  | r :: _ => r.start

/-- Spans lie inside the text and are non-overlapping in ascending
order. -/
def validSpans (text : List Char) (rs : List Replacement) : Prop :=
  (∀ r ∈ rs, r.start ≤ r.end_ ∧ r.end_ ≤ text.length)
    ∧ List.Chain' (fun a b => a.end_ ≤ b.start) rs

theorem apply_replacements_nil (text : List Char) :
    apply_replacements text [] = text := rfl

theorem apply_replacements_cons (text : List Char) (r : Replacement)
    (rs : List Replacement) :
    apply_replacements text (r :: rs) =
      (apply_replacements text rs).take r.start ++ r.decoded
        ++ (apply_replacements text rs).drop r.end_ := by
  cases rs with
  | nil => simp [apply_replacements]
  | cons r' rs' => simp [apply_replacements]

theorem validSpans_of_cons {text : List Char} {r : Replacement}
    {rs : List Replacement} (h : validSpans text (r :: rs)) :
    validSpans text rs :=
  ⟨fun x hx => h.1 x (List.mem_cons_of_mem _ hx), h.2.tail⟩

theorem end_le_headStart {text : List Char} {r : Replacement}
    {rs : List Replacement} (h : validSpans text (r :: rs)) :
    r.end_ ≤ headStart rs text.length := by
  cases rs with
  | nil => exact (h.1 r (by simp)).2
  | cons r' rs' => exact (List.chain'_cons.mp h.2).1

theorem apply_replacements_length_ge (text : List Char) :
    ∀ rs : List Replacement, validSpans text rs →
      min (headStart rs text.length) text.length ≤ (apply_replacements text rs).length := by
  intro rs
  induction rs with
  | nil => simp [apply_replacements_nil, headStart]
  | cons r rs ih =>
    intro hv
    have hb := hv.1 r (by simp)
    have hhs := end_le_headStart hv
    have hA := ih (validSpans_of_cons hv)
    have hAlen : r.end_ ≤ (apply_replacements text rs).length := by omega
    rw [apply_replacements_cons]
    simp only [List.length_append, List.length_take, List.length_drop, headStart]
    omega

theorem apply_replacements_take_prefix (text : List Char) :
    ∀ (rs : List Replacement) (q : Nat), validSpans text rs →
      q ≤ headStart rs text.length → q ≤ text.length →
      (apply_replacements text rs).take q = text.take q := by
  intro rs
  induction rs with
  | nil => intro q _ _ _; rfl
  | cons r rs ih =>
    intro q hv hq hqt
    have hb := hv.1 r (by simp)
    have hhs := end_le_headStart hv
    have hA := apply_replacements_length_ge text rs (validSpans_of_cons hv)
    have hAlen : r.end_ ≤ (apply_replacements text rs).length := by omega
    simp only [headStart] at hq
    rw [apply_replacements_cons, List.append_assoc,
      List.take_append_of_le_length (by simp [List.length_take]; omega),
      List.take_take, min_eq_left hq]
    exact ih q (validSpans_of_cons hv) (by omega) hqt

theorem apply_replacements_drop_eq_segments (text : List Char) :
    ∀ (rs : List Replacement) (p : Nat), validSpans text rs →
      p ≤ headStart rs text.length → p ≤ text.length →
      (apply_replacements text rs).drop p = specSegments text p rs := by
  intro rs
  induction rs with
  | nil => intro p _ _ _; rfl
  | cons r rs ih =>
    intro p hv hp hpt
    have hb := hv.1 r (by simp)
    have hhs := end_le_headStart hv
    have hA := apply_replacements_length_ge text rs (validSpans_of_cons hv)
    have hAlen : r.end_ ≤ (apply_replacements text rs).length := by omega
    simp only [headStart] at hp
    rw [apply_replacements_cons, List.append_assoc,
      List.drop_append_of_le_length (by simp [List.length_take]; omega),
      apply_replacements_take_prefix text rs r.start (validSpans_of_cons hv)
        (by omega) (by omega),
      List.drop_take,
      ih r.end_ (validSpans_of_cons hv) (by omega) hb.2]
    simp [specSegments]

/-- C6: on a list of in-bounds, non-overlapping replacements in
ascending start order, `apply_replacements` (the reverse-order, highest
start first loop) returns the concatenation of the untouched segments of
the text interleaved with the decoded strings, in order. -/
theorem apply_replacements_segments (text : List Char) (reps : List Replacement)
    (hval : ∀ r ∈ reps, r.start ≤ r.end_ ∧ r.end_ ≤ text.length)
    (hchain : List.Chain' (fun a b => a.end_ ≤ b.start) reps) :
    apply_replacements text reps = specSegments text 0 reps := by
  have h := apply_replacements_drop_eq_segments text reps 0 ⟨hval, hchain⟩
    (Nat.zero_le _) (Nat.zero_le _)
  simpa using h

/-- C6 witness: concrete instantiation of `apply_replacements_segments`. -/
theorem apply_replacements_segments_witness :
    (∀ r ∈ [(⟨0, 2, "ab".toList, "X".toList⟩ : Replacement),
        ⟨3, 5, "cd".toList, "YZ".toList⟩],
      r.start ≤ r.end_ ∧ r.end_ ≤ ("ab cd".toList).length)
    ∧ List.Chain' (fun a b => a.end_ ≤ b.start)
        [(⟨0, 2, "ab".toList, "X".toList⟩ : Replacement),
          ⟨3, 5, "cd".toList, "YZ".toList⟩]
    ∧ apply_replacements ("ab cd".toList)
        [(⟨0, 2, "ab".toList, "X".toList⟩ : Replacement),
          ⟨3, 5, "cd".toList, "YZ".toList⟩]
      = specSegments ("ab cd".toList) 0
          [(⟨0, 2, "ab".toList, "X".toList⟩ : Replacement),
            ⟨3, 5, "cd".toList, "YZ".toList⟩] := by
  have hch : List.Chain' (fun a b : Replacement => a.end_ ≤ b.start)
      [(⟨0, 2, "ab".toList, "X".toList⟩ : Replacement),
        ⟨3, 5, "cd".toList, "YZ".toList⟩] :=
    List.chain'_pair.mpr (by decide)
  exact ⟨by decide, hch, apply_replacements_segments _ _ (by decide) hch⟩

/-- C7: on text in which the scanner finds no hex run, `decode_text`
returns zero replacements and the decoded output equals the input (and,
being a total function, raises nothing). -/
theorem decode_text_no_hex (text : List Char) (hs : hexRunSpans text = []) :
    decode_text text = ⟨text, text, [], 0⟩ := by
  have hrep : find_replacements text = [] := by
    simp [find_replacements, hs]
  simp [decode_text, hrep, apply_replacements]

/-- C7 witness: concrete instantiation of `decode_text_no_hex`. -/
theorem decode_text_no_hex_witness :
    hexRunSpans ("hello world".toList) = []
      ∧ decode_text ("hello world".toList) =
          ⟨"hello world".toList, "hello world".toList, [], 0⟩ :=
  ⟨by decide, decode_text_no_hex _ (by decide)⟩

end Talos
